import Mathlib

/-!
Verification of the libcvmfs path-canonicalization layer (src/cvmfs/libcvmfs.cc).

The development embeds `expand_path`, `expand_ppath` and the `cvmfs_*` file
API wrappers as Lean functions.  The repository backend (`cvmfs_context`) is
an external collaborator and is modelled as a record of oracle functions
(`GetAttr`, `Readlink`, `Open`, `Close`, `ListDirectory`) following the C++
calling convention: an integer status (0 on success, negative error code on
failure) together with the data the call fills in.

The process-global `::mountpoint` string is passed explicitly as a parameter
`m` to every function that reads it.

`expand_path` is defined exactly as the C source, by well-founded recursion
on the pair (remaining symlink budget, path length).  A fuel-indexed variant
`expandF` mirrors the same body structurally; the two are related by
soundness and totality lemmas, which at once witness termination and let
concrete runs be computed by `rfl`.
-/

/-- The subset of `struct stat` that `expand_path` inspects: the symlink bit
of `st_mode` (via `S_ISLNK`) and `st_size` (used to size the readlink
buffer). -/
structure FileStat where
  st_mode_is_link : Bool
  st_size : Nat
deriving DecidableEq, Repr

/-- Oracle model of `cvmfs_context`: each operation returns the C status
code together with the output data the C call writes through its out
parameters.  `Readlink` also receives the buffer size the caller passed. -/
structure Ctx where
  GetAttr : String → Int × FileStat
  Readlink : String → Nat → Int × String
  Open : String → Int
  Close : Int → Int
  ListDirectory : String → Int × List String

/-- POSIX errno value ENOENT (no such file or directory). -/
def ENOENT : Int := 2

/-- POSIX errno value ELOOP (too many levels of symbolic links). -/
def ELOOP : Int := 40

/-- Modelled from the spec: util's `GetFileName`, the "final component"
half of the path decomposition ("decomposed on demand into (parent path,
final component)"); the text after the last slash, or the whole string when
it has no slash.  The function itself lives in util.cc, outside src/. -/
def GetFileName (path : String) : String :=
  String.mk ((path.data.reverse.takeWhile (fun c => c ≠ '/')).reverse)

/-- Modelled from the spec: util's `GetParentPath`, the "parent path" half
of the path decomposition; the text before the last slash, or the empty
string when the path has no slash.  The function itself lives in util.cc,
outside src/. -/
def GetParentPath (path : String) : String :=
  if path.data.contains '/' then
    String.mk (path.data.take (path.data.length - (GetFileName path).data.length - 1))
  else ""

/-- The candidate path `expand_path` builds before querying `GetAttr`:
the expanded parent (`buf`), a `/` separator unless `buf` already ends in
one or is empty, then the final component. -/
def candidateOf (buf0 fname : String) : String :=
  (if buf0.data = [] ∨ buf0.data.getLast? ≠ some '/' then buf0 ++ "/" else buf0) ++ fname

/-- The absolute-symlink containment test of `expand_path`:
`strncmp(ln_buf, mountpoint, len) == 0 && (ln_buf[len] == '/' || ln_buf[len] == '\0')`. -/
def mountMatch (m t : String) : Bool :=
  m.data.isPrefixOf t.data &&
    (t.data.get? m.data.length == some '/' || t.data.length == m.data.length)

/-- Stripping the mountpoint from a matching absolute symlink target:
`buf = ln_buf + len`, and when nothing remains (`ln_buf[len] == '\0'`) the
result becomes `/`. -/
def stripMount (m t : String) : String :=
  if t.data.length = m.data.length then "/" else String.mk (t.data.drop m.data.length)

/-- The tail of `expand_path`'s body, from the `GetAttr` on the candidate
path to the symlink dereference; shared between the well-founded and the
fuel-indexed versions of the function.  `err`/`okk` build the two result
forms and `recur` performs the recursive call on a resolved symlink target
(it receives the proof that the depth bound was not yet exceeded, which the
well-founded version needs for termination). -/
def expandTail (ctx : Ctx) (m : String) {α : Type} (err : Int → α) (okk : String → α)
    (depth : Nat) (recur : ¬ depth > 1000 → String → α) (buf0 fname : String) : α :=
  let buf := candidateOf buf0 fname
  if (ctx.GetAttr buf).1 ≠ 0 then err (-(ctx.GetAttr buf).1)
  else if (ctx.GetAttr buf).2.st_mode_is_link = false then okk buf
  else if h : depth > 1000 then err ELOOP
  else
    if (ctx.Readlink buf ((ctx.GetAttr buf).2.st_size + 2)).1 ≠ 0 then
      err (-(ctx.Readlink buf ((ctx.GetAttr buf).2.st_size + 2)).1)
    else
      let target := (ctx.Readlink buf ((ctx.GetAttr buf).2.st_size + 2)).2
      if target.data.head? = some '/' then
        if mountMatch m target then recur h (stripMount m target)
        else err ENOENT
      else recur h (GetParentPath buf ++ "/" ++ target)

/-- Fuel-indexed, structurally recursive mirror of `expand_path` below.
`none` means the fuel ran out before the recursion finished. -/
def expandF (ctx : Ctx) (m : String) : Nat → String → Nat → Option (Except Int String)
  | 0, _, _ => none
  | n + 1, path, depth =>
    if GetFileName path = ".." then
      match expandF ctx m n (GetParentPath path) depth with
      | none => none
      | some (.error e) => some (.error e)
      | some (.ok expanded) =>
        if expanded = "/" then some (.error ENOENT)
        else if GetParentPath expanded = "" then some (.ok "/")
        else some (.ok (GetParentPath expanded))
    else
      match (if GetParentPath path = "" then some (Except.ok "")
             else expandF ctx m n (GetParentPath path) depth) with
      | none => none
      | some (.error e) => some (.error e)
      | some (.ok buf0) =>
        if GetParentPath path ≠ "" ∧ GetFileName path = "." then some (.ok buf0)
        else
          expandTail ctx m (fun e => some (.error e)) (fun s => some (.ok s)) depth
            (fun _ q => expandF ctx m n q (depth + 1)) buf0 (GetFileName path)

/-- Auxiliary length fact for the termination of `expand_path`. -/
theorem getParentPath_length_lt {path : String} (h : path ≠ "") :
    (GetParentPath path).data.length < path.data.length := by
  have hne : path.data ≠ [] := by
    intro hd
    exact h (by cases path with | _ d => simpa using congrArg String.mk hd)
  have hpos : 0 < path.data.length := List.length_pos.mpr hne
  unfold GetParentPath
  split
  · simp only [String.mk]
    rw [List.length_take]
    omega
  · simpa using hpos

/-- `GetParentPath "" = ""`. -/
theorem getParentPath_empty : GetParentPath "" = "" := by decide

/-- `GetFileName "" = ""`. -/
theorem getFileName_empty : GetFileName "" = "" := by decide

/-- If the final component is `..` the path is non-empty. -/
theorem path_ne_empty_of_fname_dotdot {path : String} (h : GetFileName path = "..") :
    path ≠ "" := by
  intro he
  subst he
  simp [getFileName_empty] at h

/-- If the parent component is non-empty the path is non-empty. -/
theorem path_ne_empty_of_parent_ne {path : String} (h : GetParentPath path ≠ "") :
    path ≠ "" := by
  intro he
  subst he
  exact h getParentPath_empty

/-- Shallow embedding of `expand_path` from src/cvmfs/libcvmfs.cc: expands
symlinks at every level of a path, and expands `..` and `.`; `m` is the
process-global `::mountpoint`.  `.error e` models returning `-1` with
`errno` set to `e`. -/
def expand_path (ctx : Ctx) (m : String) (path : String) (depth : Nat) : Except Int String :=
  if h1 : GetFileName path = ".." then
    match expand_path ctx m (GetParentPath path) depth with
    | .error e => .error e
    | .ok expanded =>
      if expanded = "/" then .error ENOENT
      else if GetParentPath expanded = "" then .ok "/"
      else .ok (GetParentPath expanded)
  else
    match (if h2 : GetParentPath path = "" then Except.ok ""
           else expand_path ctx m (GetParentPath path) depth) with
    | .error e => .error e
    | .ok buf0 =>
      if GetParentPath path ≠ "" ∧ GetFileName path = "." then .ok buf0
      else
        expandTail ctx m Except.error Except.ok depth
          (fun _h q => expand_path ctx m q (depth + 1)) buf0 (GetFileName path)
termination_by (1001 - depth, path.data.length)
decreasing_by
  · exact Prod.Lex.right _ (getParentPath_length_lt (path_ne_empty_of_fname_dotdot h1))
  · exact Prod.Lex.right _ (getParentPath_length_lt (path_ne_empty_of_parent_ne h2))
  · exact Prod.Lex.left _ _ (by omega)

/-- Shallow embedding of `expand_ppath` from src/cvmfs/libcvmfs.cc: like
`expand_path` but the final element of the path is not expanded. -/
def expand_ppath (ctx : Ctx) (m : String) (path : String) : Except Int String :=
  if GetParentPath path = "" then .ok path
  else
    match expand_path ctx m (GetParentPath path) 0 with
    | .error e => .error e
    | .ok expanded => .ok (expanded ++ "/" ++ GetFileName path)

/-- Shallow embedding of `cvmfs_open`: full resolution, then backend open;
the non-negative backend return value (the handle) is passed through. -/
def cvmfs_open (ctx : Ctx) (m : String) (path : String) : Except Int Int :=
  match expand_path ctx m path 0 with
  | .error e => .error e
  | .ok lpath =>
    if ctx.Open lpath < 0 then .error (-(ctx.Open lpath)) else .ok (ctx.Open lpath)

/-- Shallow embedding of `cvmfs_close`: no path resolution. -/
def cvmfs_close (ctx : Ctx) (fd : Int) : Except Int Int :=
  if ctx.Close fd < 0 then .error (-(ctx.Close fd)) else .ok 0

/-- Shallow embedding of `cvmfs_readlink`: parent-only resolution, then
backend link read into the caller's buffer of size `size`. -/
def cvmfs_readlink (ctx : Ctx) (m : String) (path : String) (size : Nat) : Except Int String :=
  match expand_ppath ctx m path with
  | .error e => .error e
  | .ok lpath =>
    if (ctx.Readlink lpath size).1 < 0 then .error (-(ctx.Readlink lpath size).1)
    else .ok (ctx.Readlink lpath size).2

/-- Shallow embedding of `cvmfs_stat`: full resolution, then backend
attribute lookup. -/
def cvmfs_stat (ctx : Ctx) (m : String) (path : String) : Except Int FileStat :=
  match expand_path ctx m path 0 with
  | .error e => .error e
  | .ok lpath =>
    if (ctx.GetAttr lpath).1 < 0 then .error (-(ctx.GetAttr lpath).1)
    else .ok (ctx.GetAttr lpath).2

/-- Shallow embedding of `cvmfs_lstat`: parent-only resolution, then backend
attribute lookup on the literal final component. -/
def cvmfs_lstat (ctx : Ctx) (m : String) (path : String) : Except Int FileStat :=
  match expand_ppath ctx m path with
  | .error e => .error e
  | .ok lpath =>
    if (ctx.GetAttr lpath).1 < 0 then .error (-(ctx.GetAttr lpath).1)
    else .ok (ctx.GetAttr lpath).2

/-- Shallow embedding of `cvmfs_listdir`: full resolution, then backend
directory listing. -/
def cvmfs_listdir (ctx : Ctx) (m : String) (path : String) : Except Int (List String) :=
  match expand_path ctx m path 0 with
  | .error e => .error e
  | .ok lpath =>
    if (ctx.ListDirectory lpath).1 < 0 then .error (-(ctx.ListDirectory lpath).1)
    else .ok (ctx.ListDirectory lpath).2

/-- Branch-by-branch relational transfer between two instances of `expandTail`. -/
theorem expandTail_rel (ctx : Ctx) (m : String) {α β : Type} (R : α → β → Prop)
    (err₁ : Int → α) (okk₁ : String → α) (err₂ : Int → β) (okk₂ : String → β)
    (depth : Nat) (recur₁ : ¬ depth > 1000 → String → α) (recur₂ : ¬ depth > 1000 → String → β)
    (buf0 fname : String)
    (hErr : ∀ e, R (err₁ e) (err₂ e))
    (hOk : R (okk₁ (candidateOf buf0 fname)) (okk₂ (candidateOf buf0 fname)))
    (hRec : ∀ h q, R (recur₁ h q) (recur₂ h q)) :
    R (expandTail ctx m err₁ okk₁ depth recur₁ buf0 fname)
      (expandTail ctx m err₂ okk₂ depth recur₂ buf0 fname) := by
  unfold expandTail
  dsimp only
  split
  · exact hErr _
  · split
    · exact hOk
    · split
      · exact hErr _
      · split
        · exact hErr _
        · split
          · split
            · exact hRec _ _
            · exact hErr _
          · exact hRec _ _

/-- Fuel monotonicity of `expandF`. -/
theorem expandF_mono (ctx : Ctx) (m : String) :
    ∀ n n' path depth r, n ≤ n' → expandF ctx m n path depth = some r →
      expandF ctx m n' path depth = some r := by
  intro n
  induction n with
  | zero => intro n' p d r _ h; simp [expandF] at h
  | succ k ih =>
    intro n' p d r hle h
    obtain ⟨k', rfl⟩ : ∃ k', n' = k' + 1 := ⟨n' - 1, by omega⟩
    have hk : k ≤ k' := by omega
    rw [expandF] at h ⊢
    by_cases hdd : GetFileName p = ".."
    · simp only [if_pos hdd] at h ⊢
      cases hE : expandF ctx m k (GetParentPath p) d with
      | none => rw [hE] at h; exact absurd h (by simp)
      | some r' =>
        rw [hE] at h
        rw [ih k' _ _ r' hk hE]
        exact h
    · simp only [if_neg hdd] at h ⊢
      by_cases hpp : GetParentPath p = ""
      · simp only [if_pos hpp] at h ⊢
        by_cases hg : GetParentPath p ≠ "" ∧ GetFileName p = "."
        · simp only [if_pos hg] at h ⊢; exact h
        · simp only [if_neg hg] at h ⊢
          exact expandTail_rel ctx m (fun a b => a = some r → b = some r) _ _ _ _ d _ _
            "" (GetFileName p)
            (fun _ hx => hx) (fun hx => hx) (fun _ q hx => ih k' _ _ _ hk hx) h
      · simp only [if_neg hpp] at h ⊢
        cases hE : expandF ctx m k (GetParentPath p) d with
        | none => rw [hE] at h; exact absurd h (by simp)
        | some r' =>
          rw [hE] at h
          rw [ih k' _ _ r' hk hE]
          cases r' with
          | error e => exact h
          | ok buf0 =>
            by_cases hg : GetParentPath p ≠ "" ∧ GetFileName p = "."
            · simp only [if_pos hg] at h ⊢; exact h
            · simp only [if_neg hg] at h ⊢
              exact expandTail_rel ctx m (fun a b => a = some r → b = some r) _ _ _ _ d _ _
                buf0 (GetFileName p)
                (fun _ hx => hx) (fun hx => hx) (fun _ q hx => ih k' _ _ _ hk hx) h

/-- Soundness of the fuel-indexed version: whenever it completes, it
computes the value of `expand_path`. -/
theorem expandF_sound (ctx : Ctx) (m : String) :
    ∀ n path depth r, expandF ctx m n path depth = some r →
      expand_path ctx m path depth = r := by
  intro n
  induction n with
  | zero => intro p d r h; simp [expandF] at h
  | succ k ih =>
    intro p d r h
    rw [expandF] at h
    rw [expand_path]
    by_cases hdd : GetFileName p = ".."
    · simp only [if_pos hdd] at h
      simp only [dif_pos hdd]
      cases hE : expandF ctx m k (GetParentPath p) d with
      | none => rw [hE] at h; exact absurd h (by simp)
      | some r' =>
        rw [hE] at h
        rw [ih _ _ _ hE]
        cases r' with
        | error e => injection h
        | ok x =>
          by_cases hx : x = "/"
          · simp only [if_pos hx] at h ⊢; injection h
          · simp only [if_neg hx] at h ⊢
            by_cases hx2 : GetParentPath x = ""
            · simp only [if_pos hx2] at h ⊢; injection h
            · simp only [if_neg hx2] at h ⊢; injection h
    · simp only [if_neg hdd] at h
      simp only [dif_neg hdd]
      by_cases hpp : GetParentPath p = ""
      · simp only [if_pos hpp] at h
        simp only [dif_pos hpp]
        by_cases hg : GetParentPath p ≠ "" ∧ GetFileName p = "."
        · exact absurd hg (by simp [hpp])
        · simp only [if_neg hg] at h ⊢
          exact expandTail_rel ctx m (fun a b => a = some r → b = r) _ _ _ _ d _ _
            "" (GetFileName p)
            (fun _ hx => by injection hx) (fun hx => by injection hx)
            (fun _ q hx => ih _ _ _ hx) h
      · simp only [if_neg hpp] at h
        simp only [dif_neg hpp]
        cases hE : expandF ctx m k (GetParentPath p) d with
        | none => rw [hE] at h; exact absurd h (by simp)
        | some r' =>
          rw [hE] at h
          rw [ih _ _ _ hE]
          cases r' with
          | error e => injection h
          | ok buf0 =>
            by_cases hg : GetParentPath p ≠ "" ∧ GetFileName p = "."
            · simp only [if_pos hg] at h ⊢; injection h
            · simp only [if_neg hg] at h ⊢
              exact expandTail_rel ctx m (fun a b => a = some r → b = r) _ _ _ _ d _ _
                buf0 (GetFileName p)
                (fun _ hx => by injection hx) (fun hx => by injection hx)
                (fun _ q hx => ih _ _ _ hx) h

/-- The tail of the resolver completes on some fuel, provided every
symlink-target recursion completes on some fuel. -/
theorem expandTail_total (ctx : Ctx) (m : String) (depth : Nat) (buf0 fname : String)
    (hRec : ∀ q, ¬ depth > 1000 → ∃ n r, expandF ctx m n q (depth + 1) = some r) :
    ∃ n r, expandTail ctx m (fun e => some (.error e)) (fun s => some (.ok s)) depth
        (fun _ q => expandF ctx m n q (depth + 1)) buf0 fname = some r := by
  simp only [expandTail]
  by_cases c1 : (ctx.GetAttr (candidateOf buf0 fname)).1 ≠ 0
  · exact ⟨0, .error (-(ctx.GetAttr (candidateOf buf0 fname)).1), by simp only [if_pos c1]⟩
  · simp only [if_neg c1]
    by_cases c2 : (ctx.GetAttr (candidateOf buf0 fname)).2.st_mode_is_link = false
    · exact ⟨0, .ok (candidateOf buf0 fname), by simp only [if_pos c2]⟩
    · simp only [if_neg c2]
      by_cases c3 : depth > 1000
      · exact ⟨0, .error ELOOP, by simp only [dif_pos c3]⟩
      · simp only [dif_neg c3]
        by_cases c4 : (ctx.Readlink (candidateOf buf0 fname)
            ((ctx.GetAttr (candidateOf buf0 fname)).2.st_size + 2)).1 ≠ 0
        · exact ⟨0, .error (-(ctx.Readlink (candidateOf buf0 fname)
            ((ctx.GetAttr (candidateOf buf0 fname)).2.st_size + 2)).1), by simp only [if_pos c4]⟩
        · simp only [if_neg c4]
          by_cases c5 : (ctx.Readlink (candidateOf buf0 fname)
              ((ctx.GetAttr (candidateOf buf0 fname)).2.st_size + 2)).2.data.head? = some '/'
          · simp only [if_pos c5]
            by_cases c6 : mountMatch m (ctx.Readlink (candidateOf buf0 fname)
                ((ctx.GetAttr (candidateOf buf0 fname)).2.st_size + 2)).2 = true
            · simp only [if_pos c6]
              obtain ⟨n, r, hn⟩ := hRec _ c3
              exact ⟨n, r, hn⟩
            · exact ⟨0, .error ENOENT, by simp only [if_neg c6]⟩
          · simp only [if_neg c5]
            obtain ⟨n, r, hn⟩ := hRec _ c3
            exact ⟨n, r, hn⟩

/-- Nested-induction core of the totality proof for `expandF`. -/
theorem expandF_total_aux (ctx : Ctx) (m : String) :
    ∀ B L path depth, 1001 - depth < B → path.data.length ≤ L →
      ∃ n r, expandF ctx m n path depth = some r := by
  intro B
  induction B with
  | zero => intro L p d hB _; omega
  | succ B ihB =>
    intro L
    induction L using Nat.strong_induction_on with
    | _ L ihL =>
      intro p d hB hL
      have hTail : ∀ buf0, ∃ n r, expandTail ctx m (fun e => some (.error e))
          (fun s => some (.ok s)) d (fun _ q => expandF ctx m n q (d + 1)) buf0
          (GetFileName p) = some r := by
        intro buf0
        refine expandTail_total ctx m d buf0 (GetFileName p) (fun q hd => ?_)
        exact ihB q.data.length q (d + 1) (by omega) (le_refl _)
      by_cases hdd : GetFileName p = ".."
      · have hp : p ≠ "" := path_ne_empty_of_fname_dotdot hdd
        have hlt := getParentPath_length_lt hp
        obtain ⟨n₁, r₁, h₁⟩ :=
          ihL (GetParentPath p).data.length (by omega) (GetParentPath p) d hB (le_refl _)
        cases r₁ with
        | error e =>
          exact ⟨n₁ + 1, .error e, by rw [expandF]; simp only [if_pos hdd]; rw [h₁]⟩
        | ok x =>
          by_cases hx : x = "/"
          · exact ⟨n₁ + 1, .error ENOENT,
              by rw [expandF]; simp only [if_pos hdd]; rw [h₁]; simp only [if_pos hx]⟩
          · by_cases hx2 : GetParentPath x = ""
            · exact ⟨n₁ + 1, .ok "/", by
                rw [expandF]; simp only [if_pos hdd]; rw [h₁]
                simp only [if_neg hx, if_pos hx2]⟩
            · exact ⟨n₁ + 1, .ok (GetParentPath x), by
                rw [expandF]; simp only [if_pos hdd]; rw [h₁]
                simp only [if_neg hx, if_neg hx2]⟩
      · by_cases hpp : GetParentPath p = ""
        · have hg : ¬ (GetParentPath p ≠ "" ∧ GetFileName p = ".") := fun hc => hc.1 hpp
          obtain ⟨n₂, r₂, h₂⟩ := hTail ""
          refine ⟨n₂ + 1, r₂, ?_⟩
          rw [expandF]
          simp only [if_neg hdd, if_pos hpp, if_neg hg]
          exact h₂
        · have hp : p ≠ "" := path_ne_empty_of_parent_ne hpp
          have hlt := getParentPath_length_lt hp
          obtain ⟨n₁, r₁, h₁⟩ :=
            ihL (GetParentPath p).data.length (by omega) (GetParentPath p) d hB (le_refl _)
          cases r₁ with
          | error e =>
            exact ⟨n₁ + 1, .error e, by
              rw [expandF]; simp only [if_neg hdd, if_neg hpp]; rw [h₁]⟩
          | ok buf0 =>
            by_cases hg : GetParentPath p ≠ "" ∧ GetFileName p = "."
            · exact ⟨n₁ + 1, .ok buf0, by
                rw [expandF]; simp only [if_neg hdd, if_neg hpp]; rw [h₁]
                simp only [if_pos hg]⟩
            · obtain ⟨n₂, r₂, h₂⟩ := hTail buf0
              have h₁m : expandF ctx m (max n₁ n₂) (GetParentPath p) d = some (.ok buf0) :=
                expandF_mono ctx m n₁ (max n₁ n₂) _ _ _ (le_max_left _ _) h₁
              have h₂m : expandTail ctx m (fun e => some (.error e)) (fun s => some (.ok s)) d
                  (fun _ q => expandF ctx m (max n₁ n₂) q (d + 1)) buf0
                  (GetFileName p) = some r₂ :=
                expandTail_rel ctx m (fun a b => a = some r₂ → b = some r₂) _ _ _ _ d _ _
                  buf0 (GetFileName p)
                  (fun _ hx => hx) (fun hx => hx)
                  (fun _ q hx => expandF_mono ctx m n₂ (max n₁ n₂) _ _ _ (le_max_right _ _) hx)
                  h₂
              refine ⟨max n₁ n₂ + 1, r₂, ?_⟩
              rw [expandF]
              simp only [if_neg hdd, if_neg hpp]
              rw [h₁m]
              simp only [if_neg hg]
              exact h₂m

/-- `expandF` completes on some fuel, for every backend, path and depth. -/
theorem expandF_total (ctx : Ctx) (m : String) (path : String) (depth : Nat) :
    ∃ n r, expandF ctx m n path depth = some r :=
  expandF_total_aux ctx m 1002 path.data.length path depth (by omega) (le_refl _)

/-- Transfer of a completed fuel-indexed run to `expand_path`. -/
theorem expand_path_eq_of_expandF {ctx : Ctx} {m : String} {n : Nat} {path : String}
    {depth : Nat} {r : Except Int String} (h : expandF ctx m n path depth = some r) :
    expand_path ctx m path depth = r :=
  expandF_sound ctx m n path depth r h

/-- Every value of `expand_path` is reached by `expandF` at some fuel. -/
theorem expandF_complete (ctx : Ctx) (m : String) (path : String) (depth : Nat) :
    ∃ n, expandF ctx m n path depth = some (expand_path ctx m path depth) := by
  obtain ⟨n, r, h⟩ := expandF_total ctx m path depth
  have hs := expandF_sound ctx m n path depth r h
  exact ⟨n, by rw [hs]; exact h⟩

/-- Strings with equal character data are equal. -/
theorem string_eq_of_data {a b : String} (h : a.data = b.data) : a = b := by
  cases a; cases b; simp only at h; rw [h]

/-- `takeWhile` stops exactly at the first failing element. -/
theorem takeWhile_append_all {p : Char → Bool} :
    ∀ (l1 : List Char) (c : Char) (l2 : List Char), (∀ x ∈ l1, p x = true) → p c = false →
      (l1 ++ c :: l2).takeWhile p = l1 := by
  intro l1
  induction l1 with
  | nil => intro c l2 _ hc; simp [List.takeWhile, hc]
  | cons a t ih =>
    intro c l2 hall hc
    have ha : p a = true := hall a (by simp)
    simp only [List.cons_append, List.takeWhile_cons, ha, if_true]
    rw [ih c l2 (fun x hx => hall x (by simp [hx])) hc]

/-- `GetFileName` of `p ++ "/" ++ f` is `f` when `f` has no slash. -/
theorem getFileName_append (p f : String) (hf : '/' ∉ f.data) :
    GetFileName (p ++ "/" ++ f) = f := by
  apply string_eq_of_data
  unfold GetFileName
  simp only [String.data_append]
  have : (p.data ++ ['/'] ++ f.data).reverse = f.data.reverse ++ '/' :: p.data.reverse := by
    simp [List.reverse_append]
  rw [this]
  rw [takeWhile_append_all f.data.reverse '/' p.data.reverse
    (fun x hx => by
      simp only [List.mem_reverse] at hx
      simp only [decide_eq_true_eq]
      rintro rfl
      exact hf hx)
    (by simp)]
  simp

/-- `GetParentPath` of `p ++ "/" ++ f` is `p` when `f` has no slash. -/
theorem getParentPath_append (p f : String) (hf : '/' ∉ f.data) :
    GetParentPath (p ++ "/" ++ f) = p := by
  apply string_eq_of_data
  unfold GetParentPath
  rw [getFileName_append p f hf]
  have hd : (p ++ "/" ++ f).data = p.data ++ '/' :: f.data := by
    simp [String.data_append]
  have hc : (p ++ "/" ++ f).data.contains '/' = true := by
    rw [hd]
    simp [List.contains]
  rw [if_pos hc, hd]
  simp only [String.mk]
  have hlen : (p.data ++ '/' :: f.data).length - f.data.length - 1 = p.data.length := by
    simp [List.length_append]
    omega
  rw [hlen]
  exact List.take_left' rfl

/-- The head of a string extended on the right. -/
theorem head_append_left {a : String} (b : String) (h : a.data ≠ []) :
    (a ++ b).data.head? = a.data.head? := by
  rw [String.data_append]
  exact List.head?_append_of_ne_nil _ h

/-- Taking a parent preserves a leading slash (or yields the empty string). -/
theorem getParentPath_head {s : String} (h : s.data.head? = some '/') :
    GetParentPath s = "" ∨ (GetParentPath s).data.head? = some '/' := by
  unfold GetParentPath
  split
  · cases hk : s.data.length - (GetFileName s).data.length - 1 with
    | zero => left; rfl
    | succ k =>
      right
      cases hs : s.data with
      | nil => rw [hs] at h; simp at h
      | cons c t =>
        rw [hs] at h
        simp only [List.head?_cons, Option.some.injEq] at h
        subst h
        simp only [String.mk, hs, List.take_succ_cons, List.head?_cons]
  · left; rfl

/-- The candidate path always starts with a slash when the parent expansion
does (or is empty). -/
theorem candidateOf_head {buf0 : String} (fname : String)
    (h : buf0 = "" ∨ buf0.data.head? = some '/') :
    (candidateOf buf0 fname).data.head? = some '/' := by
  unfold candidateOf
  rcases h with h | h
  · subst h
    rw [if_pos (Or.inl rfl)]
    have he : ("" ++ "/" : String) = "/" := rfl
    rw [he, head_append_left fname (by decide)]
    rfl
  · have hne : buf0.data ≠ [] := by
      intro hx; rw [hx] at h; simp at h
    split
    · rw [head_append_left fname (by rw [String.data_append]; simp [hne]),
        head_append_left "/" hne]
      exact h
    · rw [head_append_left fname hne]
      exact h

/-- Containment invariant at the fuel-indexed level: every successful
result starts with `/` (in repository-relative form: it begins at the
repository root). -/
theorem expandF_head_slash (ctx : Ctx) (m : String) :
    ∀ n path depth r, expandF ctx m n path depth = some (.ok r) →
      r.data.head? = some '/' := by
  intro n
  induction n with
  | zero => intro p d r h; simp [expandF] at h
  | succ k ih =>
    intro p d r h
    rw [expandF] at h
    by_cases hdd : GetFileName p = ".."
    · simp only [if_pos hdd] at h
      cases hE : expandF ctx m k (GetParentPath p) d with
      | none => rw [hE] at h; exact absurd h (by simp)
      | some r' =>
        rw [hE] at h
        cases r' with
        | error e => exact absurd h (by simp)
        | ok x =>
          have hx := ih _ _ _ hE
          by_cases h1 : x = "/"
          · simp only [if_pos h1] at h; exact absurd h (by simp)
          · simp only [if_neg h1] at h
            by_cases h2 : GetParentPath x = ""
            · simp only [if_pos h2] at h
              injection h with h'
              injection h' with h''
              subst h''
              decide
            · simp only [if_neg h2] at h
              injection h with h'
              injection h' with h''
              subst h''
              rcases getParentPath_head hx with hc | hc
              · exact absurd hc h2
              · exact hc
    · simp only [if_neg hdd] at h
      by_cases hpp : GetParentPath p = ""
      · simp only [if_pos hpp] at h
        by_cases hg : GetParentPath p ≠ "" ∧ GetFileName p = "."
        · exact absurd hg (by simp [hpp])
        · simp only [if_neg hg] at h
          refine expandTail_rel ctx m
            (fun a _ => a = some (.ok r) → r.data.head? = some '/') _ _
            (fun e => some (Except.error e)) (fun s => some (Except.ok s)) d _
            (fun _ q => expandF ctx m k q (d + 1)) "" (GetFileName p)
            (fun e hx => by simp at hx)
            (fun hx => ?_) (fun _ q hx => ih _ _ _ hx) h
          injection hx with hx'
          injection hx' with hx''
          subst hx''
          exact candidateOf_head _ (Or.inl rfl)
      · simp only [if_neg hpp] at h
        cases hE : expandF ctx m k (GetParentPath p) d with
        | none => rw [hE] at h; exact absurd h (by simp)
        | some r' =>
          rw [hE] at h
          cases r' with
          | error e => exact absurd h (by simp)
          | ok buf0 =>
            have hb := ih _ _ _ hE
            by_cases hg : GetParentPath p ≠ "" ∧ GetFileName p = "."
            · simp only [if_pos hg] at h
              injection h with h'
              injection h' with h''
              subst h''
              exact hb
            · simp only [if_neg hg] at h
              refine expandTail_rel ctx m
                (fun a _ => a = some (.ok r) → r.data.head? = some '/') _ _
                (fun e => some (Except.error e)) (fun s => some (Except.ok s)) d _
                (fun _ q => expandF ctx m k q (d + 1)) buf0 (GetFileName p)
                (fun e hx => by simp at hx)
                (fun hx => ?_) (fun _ q hx => ih _ _ _ hx) h
              injection hx with hx'
              injection hx' with hx''
              subst hx''
              exact candidateOf_head _ (Or.inr hb)

/-- One-step behaviour of the resolver tail at a symlink: with the backend
reporting a symlink and a successful link read, the tail dereferences the
target (absolute targets are containment-checked against the mountpoint and
stripped; relative targets are resolved against the parent directory of the
symlink itself). -/
theorem expandTail_symlink (ctx : Ctx) (m : String) {α : Type} (err : Int → α)
    (okk : String → α) (depth : Nat) (recur : ¬ depth > 1000 → String → α)
    (buf0 fname : String) (st : FileStat) (t : String)
    (ha : ctx.GetAttr (candidateOf buf0 fname) = (0, st))
    (hlink : st.st_mode_is_link = true)
    (hd : ¬ depth > 1000)
    (hrl : ctx.Readlink (candidateOf buf0 fname) (st.st_size + 2) = (0, t)) :
    expandTail ctx m err okk depth recur buf0 fname =
      if t.data.head? = some '/' then
        if mountMatch m t then recur hd (stripMount m t) else err ENOENT
      else recur hd (GetParentPath (candidateOf buf0 fname) ++ "/" ++ t) := by
  unfold expandTail
  dsimp only
  rw [ha]
  dsimp only
  rw [if_neg (by norm_num : ¬ (0 : Int) ≠ 0)]
  rw [if_neg (by simp [hlink])]
  rw [dif_neg hd]
  rw [hrl]
  dsimp only
  rw [if_neg (by norm_num : ¬ (0 : Int) ≠ 0)]

/-- One-step behaviour of `expand_path` at a symlink (hypotheses fix the
expanded parent `buf0` and the backend's answers on the candidate path). -/
theorem expand_path_symlink_step (ctx : Ctx) (m path : String) (depth : Nat)
    (buf0 : String) (st : FileStat) (t : String)
    (hdd : GetFileName path ≠ "..")
    (hg : ¬ (GetParentPath path ≠ "" ∧ GetFileName path = "."))
    (hp : (if GetParentPath path = "" then Except.ok ""
           else expand_path ctx m (GetParentPath path) depth) = Except.ok buf0)
    (ha : ctx.GetAttr (candidateOf buf0 (GetFileName path)) = (0, st))
    (hlink : st.st_mode_is_link = true)
    (hd : ¬ depth > 1000)
    (hrl : ctx.Readlink (candidateOf buf0 (GetFileName path)) (st.st_size + 2) = (0, t)) :
    expand_path ctx m path depth =
      if t.data.head? = some '/' then
        if mountMatch m t then expand_path ctx m (stripMount m t) (depth + 1)
        else .error ENOENT
      else
        expand_path ctx m
          (GetParentPath (candidateOf buf0 (GetFileName path)) ++ "/" ++ t) (depth + 1) := by
  rw [expand_path]
  rw [dif_neg hdd]
  by_cases hpp : GetParentPath path = ""
  · rw [if_pos hpp] at hp
    injection hp with hp'
    subst hp'
    rw [dif_pos hpp]
    dsimp only
    rw [if_neg hg]
    exact expandTail_symlink ctx m _ _ depth _ "" (GetFileName path) st t ha hlink hd hrl
  · rw [if_neg hpp] at hp
    rw [dif_neg hpp, hp]
    dsimp only
    rw [if_neg hg]
    exact expandTail_symlink ctx m _ _ depth _ buf0 (GetFileName path) st t ha hlink hd hrl

/-- One-step behaviour of `expand_path` when the final component is `.`
and the parent component is non-empty: the result is exactly the parent's
expansion (for every backend, so no backend call is made for `.`). -/
theorem expand_path_dot_step (ctx : Ctx) (m path : String) (depth : Nat)
    (hdd : GetFileName path = ".") (hpp : GetParentPath path ≠ "") :
    expand_path ctx m path depth = expand_path ctx m (GetParentPath path) depth := by
  rw [expand_path]
  rw [dif_neg (by rw [hdd]; decide)]
  rw [dif_neg hpp]
  cases hE : expand_path ctx m (GetParentPath path) depth with
  | error e => rfl
  | ok buf0 => exact if_pos ⟨hpp, hdd⟩

/-- One-step behaviour of the resolver tail when the candidate is not a
symlink: the candidate itself is the result. -/
theorem expandTail_nonlink (ctx : Ctx) (m : String) {α : Type} (err : Int → α)
    (okk : String → α) (depth : Nat) (recur : ¬ depth > 1000 → String → α)
    (buf0 fname : String) (st : FileStat)
    (ha : ctx.GetAttr (candidateOf buf0 fname) = (0, st))
    (hlink : st.st_mode_is_link = false) :
    expandTail ctx m err okk depth recur buf0 fname = okk (candidateOf buf0 fname) := by
  unfold expandTail
  dsimp only
  rw [ha]
  dsimp only
  rw [if_neg (by norm_num : ¬ (0 : Int) ≠ 0)]
  rw [if_pos hlink]

/-- One-step behaviour of the resolver tail when the attribute lookup on the
candidate fails: the backend error is propagated as `errno = -rc`. -/
theorem expandTail_attr_error (ctx : Ctx) (m : String) {α : Type} (err : Int → α)
    (okk : String → α) (depth : Nat) (recur : ¬ depth > 1000 → String → α)
    (buf0 fname : String) (rc : Int) (st : FileStat)
    (ha : ctx.GetAttr (candidateOf buf0 fname) = (rc, st)) (hrc : rc ≠ 0) :
    expandTail ctx m err okk depth recur buf0 fname = err (-rc) := by
  unfold expandTail
  dsimp only
  rw [ha]
  dsimp only
  rw [if_pos hrc]

/-- One-step behaviour of the resolver tail at a symlink when the depth
counter has exceeded the bound: fail with ELOOP. -/
theorem expandTail_eloop (ctx : Ctx) (m : String) {α : Type} (err : Int → α)
    (okk : String → α) (depth : Nat) (recur : ¬ depth > 1000 → String → α)
    (buf0 fname : String) (st : FileStat)
    (ha : ctx.GetAttr (candidateOf buf0 fname) = (0, st))
    (hlink : st.st_mode_is_link = true) (hd : depth > 1000) :
    expandTail ctx m err okk depth recur buf0 fname = err ELOOP := by
  unfold expandTail
  dsimp only
  rw [ha]
  dsimp only
  rw [if_neg (by norm_num : ¬ (0 : Int) ≠ 0)]
  rw [if_neg (by simp [hlink])]
  rw [dif_pos hd]

/-- One-step behaviour of `expand_path` at an ordinary, non-symlink final
component: the candidate path is returned. -/
theorem expand_path_nonlink_step (ctx : Ctx) (m path : String) (depth : Nat)
    (buf0 : String) (st : FileStat)
    (hdd : GetFileName path ≠ "..")
    (hg : ¬ (GetParentPath path ≠ "" ∧ GetFileName path = "."))
    (hp : (if GetParentPath path = "" then Except.ok ""
           else expand_path ctx m (GetParentPath path) depth) = Except.ok buf0)
    (ha : ctx.GetAttr (candidateOf buf0 (GetFileName path)) = (0, st))
    (hlink : st.st_mode_is_link = false) :
    expand_path ctx m path depth = .ok (candidateOf buf0 (GetFileName path)) := by
  rw [expand_path]
  rw [dif_neg hdd]
  by_cases hpp : GetParentPath path = ""
  · rw [if_pos hpp] at hp
    injection hp with hp'
    subst hp'
    rw [dif_pos hpp]
    dsimp only
    rw [if_neg hg]
    exact expandTail_nonlink ctx m _ _ depth _ "" (GetFileName path) st ha hlink
  · rw [if_neg hpp] at hp
    rw [dif_neg hpp, hp]
    dsimp only
    rw [if_neg hg]
    exact expandTail_nonlink ctx m _ _ depth _ buf0 (GetFileName path) st ha hlink

/-- One-step behaviour of `expand_path` when the attribute lookup on the
candidate path fails. -/
theorem expand_path_attr_error_step (ctx : Ctx) (m path : String) (depth : Nat)
    (buf0 : String) (rc : Int) (st : FileStat)
    (hdd : GetFileName path ≠ "..")
    (hg : ¬ (GetParentPath path ≠ "" ∧ GetFileName path = "."))
    (hp : (if GetParentPath path = "" then Except.ok ""
           else expand_path ctx m (GetParentPath path) depth) = Except.ok buf0)
    (ha : ctx.GetAttr (candidateOf buf0 (GetFileName path)) = (rc, st)) (hrc : rc ≠ 0) :
    expand_path ctx m path depth = .error (-rc) := by
  rw [expand_path]
  rw [dif_neg hdd]
  by_cases hpp : GetParentPath path = ""
  · rw [if_pos hpp] at hp
    injection hp with hp'
    subst hp'
    rw [dif_pos hpp]
    dsimp only
    rw [if_neg hg]
    exact expandTail_attr_error ctx m _ _ depth _ "" (GetFileName path) rc st ha hrc
  · rw [if_neg hpp] at hp
    rw [dif_neg hpp, hp]
    dsimp only
    rw [if_neg hg]
    exact expandTail_attr_error ctx m _ _ depth _ buf0 (GetFileName path) rc st ha hrc

/-- One-step behaviour of `expand_path` at a symlink beyond the depth
bound: fail with ELOOP. -/
theorem expand_path_eloop_step (ctx : Ctx) (m path : String) (depth : Nat)
    (buf0 : String) (st : FileStat)
    (hdd : GetFileName path ≠ "..")
    (hg : ¬ (GetParentPath path ≠ "" ∧ GetFileName path = "."))
    (hp : (if GetParentPath path = "" then Except.ok ""
           else expand_path ctx m (GetParentPath path) depth) = Except.ok buf0)
    (ha : ctx.GetAttr (candidateOf buf0 (GetFileName path)) = (0, st))
    (hlink : st.st_mode_is_link = true) (hd : depth > 1000) :
    expand_path ctx m path depth = .error ELOOP := by
  rw [expand_path]
  rw [dif_neg hdd]
  by_cases hpp : GetParentPath path = ""
  · rw [if_pos hpp] at hp
    injection hp with hp'
    subst hp'
    rw [dif_pos hpp]
    dsimp only
    rw [if_neg hg]
    exact expandTail_eloop ctx m _ _ depth _ "" (GetFileName path) st ha hlink hd
  · rw [if_neg hpp] at hp
    rw [dif_neg hpp, hp]
    dsimp only
    rw [if_neg hg]
    exact expandTail_eloop ctx m _ _ depth _ buf0 (GetFileName path) st ha hlink hd

/-- A normal path component: non-empty, not `.` or `..`, and slash-free. -/
def normalComp (f : String) : Prop :=
  f ≠ "" ∧ f ≠ "." ∧ f ≠ ".." ∧ '/' ∉ f.data

/-- Canonical paths `/c1/.../ck` (k ≥ 1): absolute, with every component a
normal component — no `.`, no `..`, no empty component, no trailing slash. -/
inductive Canonical : String → Prop
  | top (f : String) : normalComp f → Canonical ("/" ++ f)
  | step (p f : String) : Canonical p → normalComp f → Canonical (p ++ "/" ++ f)

/-- Component-wise ancestors of a path: the path itself, its parent, its
grandparent, ..., stopping when the parent component becomes empty. -/
def ancestorsAux : Nat → String → List String
  | 0, _ => []
  | n + 1, p => p :: (if GetParentPath p = "" then [] else ancestorsAux n (GetParentPath p))

/-- The ancestors of a path, with enough fuel to reach the top. -/
def ancestors (p : String) : List String := ancestorsAux (p.data.length + 1) p

/-- `ancestorsAux` does not depend on the fuel once it exceeds the length. -/
theorem ancestorsAux_irrel :
    ∀ n1 n2 p, p.data.length < n1 → p.data.length < n2 →
      ancestorsAux n1 p = ancestorsAux n2 p := by
  intro n1
  induction n1 with
  | zero => intro n2 p h1 _; omega
  | succ k ih =>
    intro n2 p h1 h2
    obtain ⟨k', rfl⟩ : ∃ k', n2 = k' + 1 := ⟨n2 - 1, by omega⟩
    simp only [ancestorsAux]
    by_cases hpp : GetParentPath p = ""
    · simp [hpp]
    · simp only [if_neg hpp]
      have hlt := getParentPath_length_lt (path_ne_empty_of_parent_ne hpp)
      rw [ih k' (GetParentPath p) (by omega) (by omega)]

/-- Prepending a component to the front: `"" ++ s = s`. -/
theorem string_empty_append (s : String) : "" ++ s = s := by
  apply string_eq_of_data
  rw [String.data_append]
  rfl

/-- A top-level canonical path `/f` has parent `""` and file name `f`. -/
theorem top_split (f : String) (hf : '/' ∉ f.data) :
    GetParentPath ("/" ++ f) = "" ∧ GetFileName ("/" ++ f) = f := by
  have h1 : ("/" ++ f : String) = "" ++ "/" ++ f := by rw [string_empty_append]
  constructor
  · rw [h1, getParentPath_append "" f hf]
  · rw [h1, getFileName_append "" f hf]

/-- Canonical paths are non-empty. -/
theorem canonical_ne_empty {p : String} (h : Canonical p) : p ≠ "" := by
  induction h with
  | top f hf =>
    intro hx
    have := congrArg (fun s => s.data.length) hx
    simp only [String.data_append] at this
    simp at this
  | step p f _ hf ih =>
    intro hx
    have := congrArg (fun s => s.data.length) hx
    simp only [String.data_append] at this
    simp at this

/-- Canonical paths do not end in a slash. -/
theorem canonical_no_trailing {p : String} (h : Canonical p) :
    p.data.getLast? ≠ some '/' := by
  have key : ∀ (a f : String), normalComp f → (a ++ f).data.getLast? ≠ some '/' := by
    intro a f hf hx
    have hfd : f.data ≠ [] := by
      intro hn
      exact hf.1 (string_eq_of_data (by rw [hn]))
    rw [String.data_append, List.getLast?_append] at hx
    cases hl : f.data.getLast? with
    | none => exact hfd (List.getLast?_eq_none_iff.mp hl)
    | some c =>
      rw [hl] at hx
      have hc : c = '/' := by injection (show some c = some '/' from hx)
      subst hc
      obtain ⟨hne, hx2⟩ := List.mem_getLast?_eq_getLast (x := '/') (by rw [hl]; rfl)
      have hmem : '/' ∈ f.data := by rw [hx2]; exact List.getLast_mem hne
      exact hf.2.2.2 hmem
  cases h with
  | top f hf => exact key "/" f hf
  | step p f _ hf => exact key (p ++ "/") f hf

/-- Ancestors of a canonical extension: the path itself, then the ancestors
of the parent. -/
theorem ancestors_step (p f : String) (hp : p ≠ "") (hf : '/' ∉ f.data) :
    ancestors (p ++ "/" ++ f) = (p ++ "/" ++ f) :: ancestors p := by
  unfold ancestors
  rw [ancestorsAux]
  rw [getParentPath_append p f hf]
  rw [if_neg hp]
  congr 1
  have hlen : p.data.length < (p ++ "/" ++ f).data.length := by
    simp [String.data_append]
  exact ancestorsAux_irrel _ _ p (by omega) (by omega)

/-- Ancestors of a top-level canonical path: just the path. -/
theorem ancestors_top (f : String) (hf : '/' ∉ f.data) :
    ancestors ("/" ++ f) = ["/" ++ f] := by
  unfold ancestors
  rw [ancestorsAux]
  rw [(top_split f hf).1]
  simp

/-- The candidate built on an empty parent expansion. -/
theorem candidateOf_empty (f : String) : candidateOf "" f = "/" ++ f := by
  unfold candidateOf
  rw [if_pos (Or.inl rfl), string_empty_append]

/-- A `GetAttr` answer with a zero status, in pair form. -/
theorem getAttr_pair_of_rc_zero (ctx : Ctx) (q : String) (h : (ctx.GetAttr q).1 = 0) :
    ctx.GetAttr q = (0, (ctx.GetAttr q).2) := by
  rw [← h]

/-- Idempotence core: a canonical path on which every component-wise
ancestor has a successful, non-symlink attribute lookup expands to itself. -/
theorem expand_path_canonical (ctx : Ctx) (m : String) :
    ∀ path, Canonical path → ∀ depth,
      (∀ q ∈ ancestors path,
        (ctx.GetAttr q).1 = 0 ∧ (ctx.GetAttr q).2.st_mode_is_link = false) →
      expand_path ctx m path depth = .ok path := by
  intro path hc
  induction hc with
  | top f hf =>
    intro depth hat
    have hsplit := top_split f hf.2.2.2
    have hattr := hat ("/" ++ f) (by rw [ancestors_top f hf.2.2.2]; simp)
    have hthis := expand_path_nonlink_step ctx m ("/" ++ f) depth ""
      (ctx.GetAttr ("/" ++ f)).2
      (by rw [hsplit.2]; exact hf.2.2.1)
      (fun hx => hx.1 hsplit.1)
      (by rw [hsplit.1]; simp)
      (by rw [hsplit.2, candidateOf_empty]; exact getAttr_pair_of_rc_zero ctx _ hattr.1)
      hattr.2
    rw [hsplit.2, candidateOf_empty] at hthis
    exact hthis
  | step p f hcp hf ih =>
    intro depth hat
    have hpne := canonical_ne_empty hcp
    have hsplitP := getParentPath_append p f hf.2.2.2
    have hsplitF := getFileName_append p f hf.2.2.2
    have hanc := ancestors_step p f hpne hf.2.2.2
    have hattr := hat (p ++ "/" ++ f) (by rw [hanc]; simp)
    have hparent := ih depth (fun q hq => hat q (by rw [hanc]; simp [hq]))
    have hcand : candidateOf p f = p ++ "/" ++ f := by
      unfold candidateOf
      rw [if_pos (Or.inr (canonical_no_trailing hcp))]
    have hthis := expand_path_nonlink_step ctx m (p ++ "/" ++ f) depth p
      (ctx.GetAttr (p ++ "/" ++ f)).2
      (by rw [hsplitF]; exact hf.2.2.1)
      (fun hx => hf.2.1 (by rw [← hsplitF]; exact hx.2))
      (by rw [hsplitP, if_neg hpne]; exact hparent)
      (by rw [hsplitF, hcand]; exact getAttr_pair_of_rc_zero ctx _ hattr.1)
      hattr.2
    rw [hsplitF, hcand] at hthis
    exact hthis

/-- A backend on which every path is an existing regular entry (no
symlinks anywhere). -/
def ctxAllFiles : Ctx := {
  GetAttr := fun _ => (0, { st_mode_is_link := false, st_size := 0 }),
  Readlink := fun _ _ => (-22, ""),
  Open := fun _ => 3,
  Close := fun _ => 0,
  ListDirectory := fun _ => (0, []) }

/-- Backend for Scenarios B and C: `/link` is an absolute symlink to
`/cvmfs/repo/target`, `/link2` an absolute symlink to `/etc/passwd`,
everything else a regular entry. -/
def ctxB : Ctx := {
  GetAttr := fun s =>
    if s = "/link" then (0, { st_mode_is_link := true, st_size := 18 })
    else if s = "/link2" then (0, { st_mode_is_link := true, st_size := 11 })
    else (0, { st_mode_is_link := false, st_size := 0 }),
  Readlink := fun s _ =>
    if s = "/link" then (0, "/cvmfs/repo/target")
    else if s = "/link2" then (0, "/etc/passwd")
    else (-22, ""),
  Open := fun _ => 3,
  Close := fun _ => 0,
  ListDirectory := fun _ => (0, []) }

/-- Backend with `/a` a relative symlink to `../../x` (escapes the root
by dot-dot ascent), everything else regular. -/
def ctxRel : Ctx := {
  GetAttr := fun s =>
    if s = "/a" then (0, { st_mode_is_link := true, st_size := 7 })
    else (0, { st_mode_is_link := false, st_size := 0 }),
  Readlink := fun s _ => if s = "/a" then (0, "../../x") else (-22, ""),
  Open := fun _ => 3,
  Close := fun _ => 0,
  ListDirectory := fun _ => (0, []) }

/-- Backend on which `GetAttr "/."` fails with status `-5` and every other
lookup succeeds on a regular entry. -/
def ctxDot : Ctx := {
  GetAttr := fun s =>
    if s = "/." then (-5, { st_mode_is_link := false, st_size := 0 })
    else (0, { st_mode_is_link := false, st_size := 0 }),
  Readlink := fun _ _ => (-22, ""),
  Open := fun _ => 3,
  Close := fun _ => 0,
  ListDirectory := fun _ => (0, []) }

/-- Backend with `/a/b` a relative symlink to `c`, everything else
regular (distinguishes full from parent-only resolution). -/
def ctxSL : Ctx := {
  GetAttr := fun s =>
    if s = "/a/b" then (0, { st_mode_is_link := true, st_size := 1 })
    else (0, { st_mode_is_link := false, st_size := 0 }),
  Readlink := fun s _ => if s = "/a/b" then (0, "c") else (-22, ""),
  Open := fun _ => 3,
  Close := fun _ => 0,
  ListDirectory := fun _ => (0, ["x", "y"]) }

/-- Backend with `/l` an absolute symlink to `/etc/passwd`, everything
else regular (exercises the empty-mountpoint behaviour). -/
def ctxM : Ctx := {
  GetAttr := fun s =>
    if s = "/l" then (0, { st_mode_is_link := true, st_size := 11 })
    else (0, { st_mode_is_link := false, st_size := 0 }),
  Readlink := fun s _ => if s = "/l" then (0, "/etc/passwd") else (-22, ""),
  Open := fun _ => 3,
  Close := fun _ => 0,
  ListDirectory := fun _ => (0, []) }

/-- The name of the k-th entry of the symlink chain: a slash followed by
the character with code `256 + k`. -/
def chainChar (k : Nat) : Char := Char.ofNat (256 + k)

/-- The k-th chain entry path. -/
def chainName (k : Nat) : String := String.mk ['/', chainChar k]

/-- Backend holding a relative symlink chain of `nl` links: entries
`chainName 0 … chainName (nl - 1)` are symlinks, each pointing (by a
relative, one-character target) to the next entry; `chainName nl` is a
regular entry. -/
def chainCtx (nl : Nat) : Ctx := {
  GetAttr := fun s =>
    match s.data with
    | ['/', c] => (0, { st_mode_is_link := 256 ≤ c.toNat && c.toNat < 256 + nl, st_size := 1 })
    | _ => (-2, { st_mode_is_link := false, st_size := 0 }),
  Readlink := fun s _ =>
    match s.data with
    | ['/', c] => (0, String.mk [Char.ofNat (c.toNat + 1)])
    | _ => (-22, ""),
  Open := fun _ => -1,
  Close := fun _ => -1,
  ListDirectory := fun _ => (-1, []) }

/-- `Char.ofNat` round-trips on code points below the surrogate range. -/
theorem char_ofNat_toNat {n : Nat} (h : n < 55296) : (Char.ofNat n).toNat = n := by
  unfold Char.ofNat
  rw [dif_pos (Or.inl h)]
  simp [Char.ofNatAux, Char.toNat, UInt32.toNat, BitVec.toNat_ofNatLt]

/-- The chain characters' code points. -/
theorem chainChar_toNat (k : Nat) (hk : k < 55040) : (chainChar k).toNat = 256 + k := by
  unfold chainChar
  exact char_ofNat_toNat (by omega)

/-- Chain characters are not slashes. -/
theorem chainChar_ne_slash (k : Nat) (hk : k < 55040) : chainChar k ≠ '/' := by
  intro hx
  have := congrArg Char.toNat hx
  rw [chainChar_toNat k hk] at this
  have h47 : ('/').toNat = 47 := rfl
  rw [h47] at this
  omega

/-- File name of a two-character path `/c`. -/
theorem getFileName_two (c : Char) (hc : c ≠ '/') :
    GetFileName (String.mk ['/', c]) = String.mk [c] := by
  unfold GetFileName
  simp [List.takeWhile, hc]

/-- Parent of a two-character path `/c` is empty. -/
theorem getParentPath_two (c : Char) (hc : c ≠ '/') :
    GetParentPath (String.mk ['/', c]) = "" := by
  unfold GetParentPath
  rw [if_pos (by simp [List.contains])]
  rw [getFileName_two c hc]
  rfl

/-- A one-character component is not `..`. -/
theorem one_char_ne_dotdot (c : Char) : String.mk [c] ≠ ".." := by
  intro hx
  have := congrArg (fun s => s.data.length) hx
  simp at this

/-- A one-character component is not `.` unless the character is `.`. -/
theorem one_char_ne_dot (c : Char) (hc : c ≠ '.') : String.mk [c] ≠ "." := by
  intro hx
  have : c = '.' := by
    have h2 := congrArg String.data hx
    simpa using h2
  exact hc this

/-- The chain backend's attribute answer on a chain entry. -/
theorem chainCtx_getAttr (nl k : Nat) :
    (chainCtx nl).GetAttr (chainName k) =
      (0, { st_mode_is_link := 256 ≤ (chainChar k).toNat && (chainChar k).toNat < 256 + nl,
            st_size := 1 }) := rfl

/-- The chain backend's link target on a chain entry. -/
theorem chainCtx_readlink (nl k sz : Nat) :
    (chainCtx nl).Readlink (chainName k) sz =
      (0, String.mk [Char.ofNat ((chainChar k).toNat + 1)]) := rfl

/-- The candidate rebuilt from an empty parent and a one-character name. -/
theorem candidate_chain (c : Char) : candidateOf "" (String.mk [c]) = String.mk ['/', c] := by
  rw [candidateOf_empty]
  rfl

/-- File name of a chain entry. -/
theorem chainName_fname (k : Nat) (hk : k < 55040) :
    GetFileName (chainName k) = String.mk [chainChar k] :=
  getFileName_two _ (chainChar_ne_slash k hk)

/-- Parent of a chain entry is empty. -/
theorem chainName_parent (k : Nat) (hk : k < 55040) :
    GetParentPath (chainName k) = "" :=
  getParentPath_two _ (chainChar_ne_slash k hk)

/-- Candidate rebuilt for a chain entry. -/
theorem candidate_chainName (k : Nat) :
    candidateOf "" (String.mk [chainChar k]) = chainName k :=
  candidate_chain _

/-- A chain of `nl ≤ 1001` links resolves: from entry `k` at depth `k`
(with `k + j = nl`), the fuel-indexed resolver reaches the final regular
entry. -/
theorem chain_ok (nl : Nat) (hnl : nl ≤ 1001) :
    ∀ j k, k + j = nl →
      expandF (chainCtx nl) "" (j + 1) (chainName k) k = some (.ok (chainName nl)) := by
  intro j
  induction j with
  | zero =>
    intro k hk
    have hkn : k = nl := by omega
    subst hkn
    have hc := chainChar_ne_slash k (by omega)
    rw [expandF]
    rw [if_neg (by rw [chainName_fname k (by omega)]; exact one_char_ne_dotdot _)]
    rw [if_pos (chainName_parent k (by omega))]
    dsimp only
    rw [if_neg (fun hx => hx.1 (chainName_parent k (by omega)))]
    rw [chainName_fname k (by omega)]
    have hlink : (256 ≤ (chainChar k).toNat && (chainChar k).toNat < 256 + k) = false := by
      rw [chainChar_toNat k (by omega)]
      simp
    rw [expandTail_nonlink (chainCtx k) "" _ _ k _ "" (String.mk [chainChar k])
      { st_mode_is_link := false, st_size := 1 }
      (by rw [candidate_chainName]
          rw [chainCtx_getAttr k k, hlink])
      rfl]
    rw [candidate_chainName]
  | succ j ih =>
    intro k hk
    have hkn : k < nl := by omega
    have hc := chainChar_ne_slash k (by omega)
    have htn := chainChar_toNat k (by omega)
    rw [expandF]
    rw [if_neg (by rw [chainName_fname k (by omega)]; exact one_char_ne_dotdot _)]
    rw [if_pos (chainName_parent k (by omega))]
    dsimp only
    rw [if_neg (fun hx => hx.1 (chainName_parent k (by omega)))]
    rw [chainName_fname k (by omega)]
    have hlink : (256 ≤ (chainChar k).toNat && (chainChar k).toNat < 256 + nl) = true := by
      rw [htn]
      simp
      omega
    have htarget : String.mk [Char.ofNat ((chainChar k).toNat + 1)] = String.mk [chainChar (k + 1)] := by
      rw [htn]
      rfl
    rw [expandTail_symlink (chainCtx nl) "" _ _ k _ "" (String.mk [chainChar k])
      { st_mode_is_link := true, st_size := 1 } (String.mk [chainChar (k + 1)])
      (by rw [candidate_chainName]
          rw [chainCtx_getAttr nl k, hlink])
      rfl
      (by omega)
      (by rw [candidate_chainName]
          rw [chainCtx_readlink nl k 3, htarget])]
    have hc1 := chainChar_ne_slash (k + 1) (by omega)
    rw [if_neg (by simp; exact hc1)]
    rw [candidate_chainName, chainName_parent k (by omega)]
    have hnb : ("" ++ "/" ++ String.mk [chainChar (k + 1)]) = chainName (k + 1) := rfl
    rw [hnb]
    exact ih (k + 1) (by omega)

/-- A chain of 1002 links exhausts the depth bound: from entry `k` at
depth `k` (with `k + j = 1002`, at least one link left), the resolver
fails with ELOOP. -/
theorem chain_loop :
    ∀ j k, k + j = 1002 → 1 ≤ j →
      expandF (chainCtx 1002) "" (j + 1) (chainName k) k = some (.error ELOOP) := by
  intro j
  induction j with
  | zero => intro k _ h; omega
  | succ j ih =>
    intro k hk _
    have hc := chainChar_ne_slash k (by omega)
    have htn := chainChar_toNat k (by omega)
    rw [expandF]
    rw [if_neg (by rw [chainName_fname k (by omega)]; exact one_char_ne_dotdot _)]
    rw [if_pos (chainName_parent k (by omega))]
    dsimp only
    rw [if_neg (fun hx => hx.1 (chainName_parent k (by omega)))]
    rw [chainName_fname k (by omega)]
    have hlink : (256 ≤ (chainChar k).toNat && (chainChar k).toNat < 256 + 1002) = true := by
      rw [htn]
      simp
      omega
    by_cases hq : k = 1001
    · subst hq
      rw [expandTail_eloop (chainCtx 1002) "" _ _ 1001 _ "" (String.mk [chainChar 1001])
        { st_mode_is_link := true, st_size := 1 }
        (by rw [candidate_chainName, chainCtx_getAttr 1002 1001, hlink])
        rfl (by omega)]
    · have htarget : String.mk [Char.ofNat ((chainChar k).toNat + 1)]
          = String.mk [chainChar (k + 1)] := by
        rw [htn]
        rfl
      rw [expandTail_symlink (chainCtx 1002) "" _ _ k _ "" (String.mk [chainChar k])
        { st_mode_is_link := true, st_size := 1 } (String.mk [chainChar (k + 1)])
        (by rw [candidate_chainName, chainCtx_getAttr 1002 k, hlink])
        rfl (by omega)
        (by rw [candidate_chainName, chainCtx_readlink 1002 k 3, htarget])]
      have hc1 := chainChar_ne_slash (k + 1) (by omega)
      rw [if_neg (by simp; exact hc1)]
      rw [candidate_chainName, chainName_parent k (by omega)]
      have hnb : ("" ++ "/" ++ String.mk [chainChar (k + 1)]) = chainName (k + 1) := rfl
      rw [hnb]
      exact ih (k + 1) (by omega) (by omega)

/-- A relative chain of 1001 links resolves successfully. -/
theorem chain1001_resolves :
    expand_path (chainCtx 1001) "" (chainName 0) 0 = .ok (chainName 1001) :=
  expand_path_eq_of_expandF (chain_ok 1001 (by omega) 1001 0 (by omega))

/-- A relative chain of 1002 links fails with ELOOP. -/
theorem chain1002_eloop :
    expand_path (chainCtx 1002) "" (chainName 0) 0 = .error ELOOP :=
  expand_path_eq_of_expandF (chain_loop 1002 0 (by omega) (by omega))

/-- `String.mk` on a string's own data. -/
theorem string_mk_data (s : String) : String.mk s.data = s := by cases s; rfl

/-- `expand_ppath` on a top-level path. -/
theorem expand_ppath_top (ctx : Ctx) (m path : String) (hpp : GetParentPath path = "") :
    expand_ppath ctx m path = .ok path := by
  unfold expand_ppath
  rw [if_pos hpp]

/-- `expand_ppath` when the parent expands successfully. -/
theorem expand_ppath_ok (ctx : Ctx) (m path x : String) (hpp : GetParentPath path ≠ "")
    (hx : expand_path ctx m (GetParentPath path) 0 = .ok x) :
    expand_ppath ctx m path = .ok (x ++ "/" ++ GetFileName path) := by
  unfold expand_ppath
  rw [if_neg hpp, hx]

/-- `expand_ppath` when the parent expansion fails. -/
theorem expand_ppath_error (ctx : Ctx) (m path : String) (e : Int)
    (hpp : GetParentPath path ≠ "")
    (hx : expand_path ctx m (GetParentPath path) 0 = .error e) :
    expand_ppath ctx m path = .error e := by
  unfold expand_ppath
  rw [if_neg hpp, hx]

/-- Scenario A: `/a/./b/../c` with no symlinks resolves to `/a/c`. -/
theorem evalA : expand_path ctxAllFiles "" "/a/./b/../c" 0 = .ok "/a/c" :=
  expand_path_eq_of_expandF (by rfl :
    expandF ctxAllFiles "" 30 "/a/./b/../c" 0 = some (.ok "/a/c"))

/-- Scenario B: `/link` (absolute symlink into the repository) resolves to
`/target`. -/
theorem evalB : expand_path ctxB "/cvmfs/repo" "/link" 0 = .ok "/target" :=
  expand_path_eq_of_expandF (by rfl :
    expandF ctxB "/cvmfs/repo" 30 "/link" 0 = some (.ok "/target"))

/-- Scenario C: `/link2` (absolute symlink to `/etc/passwd`) fails with
ENOENT. -/
theorem evalC : expand_path ctxB "/cvmfs/repo" "/link2" 0 = .error ENOENT :=
  expand_path_eq_of_expandF (by rfl :
    expandF ctxB "/cvmfs/repo" 30 "/link2" 0 = some (.error ENOENT))

/-- A relative symlink escaping by dot-dot ascent fails with ENOENT. -/
theorem evalRel : expand_path ctxRel "/cvmfs/repo" "/a" 0 = .error ENOENT :=
  expand_path_eq_of_expandF (by rfl :
    expandF ctxRel "/cvmfs/repo" 30 "/a" 0 = some (.error ENOENT))

/-- Top-level `.` does consult `GetAttr "/."`: the backend error surfaces. -/
theorem evalDotErr : expand_path ctxDot "" "/." 0 = .error 5 :=
  expand_path_eq_of_expandF (by rfl :
    expandF ctxDot "" 30 "/." 0 = some (.error 5))

/-- The parent of a top-level `.` expands to the root on the same backend. -/
theorem evalDotRoot : expand_path ctxDot "" "" 0 = .ok "/" :=
  expand_path_eq_of_expandF (by rfl :
    expandF ctxDot "" 30 "" 0 = some (.ok "/"))

/-- `//b` fully expands to `/b` (the root parent is not doubled). -/
theorem evalDoubleSlash : expand_path ctxAllFiles "" "//b" 0 = .ok "/b" :=
  expand_path_eq_of_expandF (by rfl :
    expandF ctxAllFiles "" 30 "//b" 0 = some (.ok "/b"))

/-- The root expands to itself on an all-files backend. -/
theorem evalRootAll : expand_path ctxAllFiles "" "/" 0 = .ok "/" :=
  expand_path_eq_of_expandF (by rfl :
    expandF ctxAllFiles "" 30 "/" 0 = some (.ok "/"))

/-- `/a` expands to itself on an all-files backend. -/
theorem evalSlashA : expand_path ctxAllFiles "" "/a" 0 = .ok "/a" :=
  expand_path_eq_of_expandF (by rfl :
    expandF ctxAllFiles "" 30 "/a" 0 = some (.ok "/a"))

/-- Full resolution follows the final symlink `/a/b → c`. -/
theorem evalSL : expand_path ctxSL "" "/a/b" 0 = .ok "/a/c" :=
  expand_path_eq_of_expandF (by rfl :
    expandF ctxSL "" 30 "/a/b" 0 = some (.ok "/a/c"))

/-- The parent `/a` of the symlink expands to itself. -/
theorem evalSLparent : expand_path ctxSL "" "/a" 0 = .ok "/a" :=
  expand_path_eq_of_expandF (by rfl :
    expandF ctxSL "" 30 "/a" 0 = some (.ok "/a"))

/-- With an empty mountpoint, `/l → /etc/passwd` resolves to the full
absolute target. -/
theorem evalM : expand_path ctxM "" "/l" 0 = .ok "/etc/passwd" :=
  expand_path_eq_of_expandF (by rfl :
    expandF ctxM "" 30 "/l" 0 = some (.ok "/etc/passwd"))

/-- With an empty mountpoint, the dereferenced target expands as an
ordinary path. -/
theorem evalMtarget : expand_path ctxM "" "/etc/passwd" 1 = .ok "/etc/passwd" :=
  expand_path_eq_of_expandF (by rfl :
    expandF ctxM "" 30 "/etc/passwd" 1 = some (.ok "/etc/passwd"))

/-- C1 (Containment): every successful result of `expand_path` is a
non-empty absolute path that begins at the repository root (it starts with
`/` in repository-relative form); a symlink whose absolute target lies
outside the mountpoint fails with errno ENOENT (Scenario C), as does a
relative symlink target that would ascend past the root. -/
theorem expand_path_containment :
    (∀ (ctx : Ctx) (m path : String) (depth : Nat) (r : String),
        expand_path ctx m path depth = .ok r → r ≠ "" ∧ r.data.head? = some '/')
    ∧ expand_path ctxB "/cvmfs/repo" "/link2" 0 = .error ENOENT
    ∧ expand_path ctxRel "/cvmfs/repo" "/a" 0 = .error ENOENT := by
  refine ⟨?_, evalC, evalRel⟩
  intro ctx m path depth r h
  obtain ⟨n, hn⟩ := expandF_complete ctx m path depth
  rw [h] at hn
  have hh := expandF_head_slash ctx m n path depth r hn
  refine ⟨?_, hh⟩
  intro hx
  subst hx
  simp at hh

/-- Witness for C1 at a concrete run. -/
theorem expand_path_containment_witness :
    ("/a" : String) ≠ "" ∧ ("/a" : String).data.head? = some '/' :=
  expand_path_containment.1 ctxAllFiles "" "/a" 0 "/a" evalSlashA

/-- C2 counterexample: a relative symlink chain of 1001 links does NOT
fail with SymlinkLoop — it resolves successfully (link `k` is dereferenced
at depth `k` and the guard is `depth > 1000`, so 1001 links pass). -/
theorem chain1001_no_eloop :
    expand_path (chainCtx 1001) "" (chainName 0) 0 = .ok (chainName 1001)
    ∧ expand_path (chainCtx 1001) "" (chainName 0) 0 ≠ .error ELOOP := by
  refine ⟨chain1001_resolves, ?_⟩
  rw [chain1001_resolves]
  simp

/-- C2 (amended): `expand_path` fails with ELOOP exactly on encountering a
symlink while `depth > 1000`; a relative chain of 1002 links fails with
SymlinkLoop (1001 links still succeed). -/
theorem expand_path_symlink_loop :
    (∀ (ctx : Ctx) (m path : String) (depth : Nat) (buf0 : String) (st : FileStat),
      GetFileName path ≠ ".." →
      ¬ (GetParentPath path ≠ "" ∧ GetFileName path = ".") →
      (if GetParentPath path = "" then Except.ok ""
       else expand_path ctx m (GetParentPath path) depth) = Except.ok buf0 →
      ctx.GetAttr (candidateOf buf0 (GetFileName path)) = (0, st) →
      st.st_mode_is_link = true →
      depth > 1000 →
      expand_path ctx m path depth = .error ELOOP)
    ∧ expand_path (chainCtx 1002) "" (chainName 0) 0 = .error ELOOP := by
  refine ⟨?_, chain1002_eloop⟩
  intro ctx m path depth buf0 st hdd hg hp ha hlink hd
  exact expand_path_eloop_step ctx m path depth buf0 st hdd hg hp ha hlink hd

/-- Witness for C2's conditional part: the 1002nd link of the long chain is
reached at depth 1001 and the resolver reports ELOOP there. -/
theorem expand_path_symlink_loop_witness :
    expand_path (chainCtx 1002) "" (chainName 1001) 1001 = .error ELOOP :=
  expand_path_symlink_loop.1 (chainCtx 1002) "" (chainName 1001) 1001 ""
    { st_mode_is_link := true, st_size := 1 }
    (by rw [chainName_fname 1001 (by omega)]; exact one_char_ne_dotdot _)
    (fun hx => hx.1 (chainName_parent 1001 (by omega)))
    (by rw [if_pos (chainName_parent 1001 (by omega))])
    (by rw [chainName_fname 1001 (by omega), candidate_chainName, chainCtx_getAttr]
        rw [chainChar_toNat 1001 (by omega)]
        norm_num)
    rfl
    (by omega)

/-- C3 (Termination): for every backend behaviour, input path and starting
depth, the fuel-indexed mirror of `expand_path` completes at some finite
fuel with exactly the value of `expand_path` — the recursion terminates
independently of the backend. -/
theorem expand_path_terminates :
    ∀ (ctx : Ctx) (m path : String) (depth : Nat),
      ∃ (n : Nat) (r : Except Int String),
        expandF ctx m n path depth = some r ∧ expand_path ctx m path depth = r := by
  intro ctx m path depth
  obtain ⟨n, r, h⟩ := expandF_total ctx m path depth
  exact ⟨n, r, h, expandF_sound ctx m n path depth r h⟩

/-- C4 (Symlink target resolution): an absolute target must extend the
mountpoint (else ENOENT); on a match the mountpoint prefix is stripped (an
exact match becomes `/`) and the resolver recurses at `depth + 1`; a
relative target is resolved against the parent directory of the symlink
itself.  Scenario B: `/link → /cvmfs/repo/target` gives `/target`. -/
theorem expand_path_symlink_target :
    (∀ (ctx : Ctx) (m path : String) (depth : Nat) (buf0 : String) (st : FileStat) (t : String),
      GetFileName path ≠ ".." →
      ¬ (GetParentPath path ≠ "" ∧ GetFileName path = ".") →
      (if GetParentPath path = "" then Except.ok ""
       else expand_path ctx m (GetParentPath path) depth) = Except.ok buf0 →
      ctx.GetAttr (candidateOf buf0 (GetFileName path)) = (0, st) →
      st.st_mode_is_link = true →
      ¬ depth > 1000 →
      ctx.Readlink (candidateOf buf0 (GetFileName path)) (st.st_size + 2) = (0, t) →
      t.data.head? = some '/' →
      (mountMatch m t = true →
        expand_path ctx m path depth = expand_path ctx m (stripMount m t) (depth + 1))
      ∧ (mountMatch m t = false → expand_path ctx m path depth = .error ENOENT))
    ∧ (∀ (ctx : Ctx) (m path : String) (depth : Nat) (buf0 : String) (st : FileStat) (t : String),
      GetFileName path ≠ ".." →
      ¬ (GetParentPath path ≠ "" ∧ GetFileName path = ".") →
      (if GetParentPath path = "" then Except.ok ""
       else expand_path ctx m (GetParentPath path) depth) = Except.ok buf0 →
      ctx.GetAttr (candidateOf buf0 (GetFileName path)) = (0, st) →
      st.st_mode_is_link = true →
      ¬ depth > 1000 →
      ctx.Readlink (candidateOf buf0 (GetFileName path)) (st.st_size + 2) = (0, t) →
      t.data.head? ≠ some '/' →
      expand_path ctx m path depth =
        expand_path ctx m
          (GetParentPath (candidateOf buf0 (GetFileName path)) ++ "/" ++ t) (depth + 1))
    ∧ (∀ m t : String, t.data.length = m.data.length → stripMount m t = "/")
    ∧ expand_path ctxB "/cvmfs/repo" "/link" 0 = .ok "/target" := by
  refine ⟨?_, ?_, ?_, evalB⟩
  · intro ctx m path depth buf0 st t hdd hg hp ha hlink hd hrl hhead
    have hstep := expand_path_symlink_step ctx m path depth buf0 st t hdd hg hp ha hlink hd hrl
    rw [if_pos hhead] at hstep
    constructor
    · intro hm
      rw [hstep, if_pos hm]
    · intro hm
      rw [hstep, if_neg (by rw [hm]; simp)]
  · intro ctx m path depth buf0 st t hdd hg hp ha hlink hd hrl hhead
    have hstep := expand_path_symlink_step ctx m path depth buf0 st t hdd hg hp ha hlink hd hrl
    rw [if_neg hhead] at hstep
    exact hstep
  · intro m t h
    unfold stripMount
    rw [if_pos h]

/-- Witness for C4 at Scenario B's backend: the absolute target matches
the mountpoint and resolution continues on the stripped target. -/
theorem expand_path_symlink_target_witness :
    mountMatch "/cvmfs/repo" "/cvmfs/repo/target" = true ∧
    expand_path ctxB "/cvmfs/repo" "/link" 0 =
      expand_path ctxB "/cvmfs/repo" (stripMount "/cvmfs/repo" "/cvmfs/repo/target") 1 := by
  refine ⟨by decide, ?_⟩
  exact (expand_path_symlink_target.1 ctxB "/cvmfs/repo" "/link" 0 ""
    { st_mode_is_link := true, st_size := 18 } "/cvmfs/repo/target"
    (by decide) (by decide) (by rw [if_pos (by decide)]) rfl rfl (by omega) rfl
    (by decide)).1 (by decide)

/-- C5 (Dot-dot ascent): when the final component is `..`, the parent is
expanded first; expansion equal to the root fails with ENOENT, otherwise
the last component of the expanded parent is stripped (an empty result
becoming `/`).  Scenario A: `/a/./b/../c` resolves to `/a/c`. -/
theorem expand_path_dotdot_ascent :
    (∀ (ctx : Ctx) (m path : String) (depth : Nat), GetFileName path = ".." →
      expand_path ctx m path depth =
        match expand_path ctx m (GetParentPath path) depth with
        | .error e => .error e
        | .ok expanded =>
          if expanded = "/" then .error ENOENT
          else if GetParentPath expanded = "" then .ok "/"
          else .ok (GetParentPath expanded))
    ∧ expand_path ctxAllFiles "" "/a/./b/../c" 0 = .ok "/a/c" := by
  refine ⟨?_, evalA⟩
  intro ctx m path depth hdd
  conv_lhs => rw [expand_path]
  rw [dif_pos hdd]

/-- Witness for C5: `/a/..` on the all-files backend ascends from `/a`
back to the root. -/
theorem expand_path_dotdot_ascent_witness :
    expand_path ctxAllFiles "" "/a/.." 0 =
      match expand_path ctxAllFiles "" (GetParentPath "/a/..") 0 with
      | .error e => .error e
      | .ok expanded =>
        if expanded = "/" then .error ENOENT
        else if GetParentPath expanded = "" then .ok "/"
        else .ok (GetParentPath expanded) :=
  expand_path_dotdot_ascent.1 ctxAllFiles "" "/a/.." 0 (by decide)

/-- C6 counterexample: for the top-level path `/.` (whose parent component
is empty), `expand_path` does NOT return the parent's expansion — the `.`
shortcut is guarded by a non-empty parent, so `GetAttr "/."` is consulted
and its failure surfaces, while the parent expands to the root. -/
theorem expand_path_dot_counterexample :
    GetParentPath "/." = ""
    ∧ expand_path ctxDot "" "/." 0 = .error 5
    ∧ expand_path ctxDot "" (GetParentPath "/.") 0 = .ok "/"
    ∧ expand_path ctxDot "" "/." 0 ≠ expand_path ctxDot "" (GetParentPath "/.") 0 := by
  have h : GetParentPath "/." = "" := by decide
  refine ⟨h, evalDotErr, ?_, ?_⟩
  · rw [h]
    exact evalDotRoot
  · rw [h, evalDotErr, evalDotRoot]
    simp

/-- C6 (amended): when the final component is `.` and the parent component
is non-empty, `expand_path` returns exactly the parent's expansion, for
every backend (hence no `GetAttr` is made for the `.` component); when the
path is top-level the shortcut is skipped and `GetAttr "/."` is consulted
like for an ordinary component. -/
theorem expand_path_dot_identity :
    (∀ (ctx : Ctx) (m path : String) (depth : Nat),
        GetFileName path = "." → GetParentPath path ≠ "" →
        expand_path ctx m path depth = expand_path ctx m (GetParentPath path) depth)
    ∧ (∀ (ctx : Ctx) (m path : String) (depth : Nat) (rc : Int) (st : FileStat),
        GetFileName path = "." → GetParentPath path = "" →
        ctx.GetAttr "/." = (rc, st) → rc ≠ 0 →
        expand_path ctx m path depth = .error (-rc)) := by
  constructor
  · exact expand_path_dot_step
  · intro ctx m path depth rc st hdot hpp hga hrc
    have hcd : candidateOf "" "." = "/." := by decide
    exact expand_path_attr_error_step ctx m path depth "" rc st
      (by rw [hdot]; decide) (fun hx => hx.1 hpp) (by rw [if_pos hpp])
      (by rw [hdot, hcd]; exact hga) hrc

/-- Witness for C6's amended statement on concrete runs. -/
theorem expand_path_dot_identity_witness :
    expand_path ctxAllFiles "" "/a/." 0 = expand_path ctxAllFiles "" (GetParentPath "/a/.") 0
    ∧ expand_path ctxDot "" "/." 0 = .error 5 :=
  ⟨expand_path_dot_identity.1 ctxAllFiles "" "/a/." 0 (by decide) (by decide),
   expand_path_dot_identity.2 ctxDot "" "/." 0 (-5) { st_mode_is_link := false, st_size := 0 }
     (by decide) (by decide) rfl (by norm_num)⟩

/-- C7 counterexample: `//b` has a parent component (`/`) and a final
component `b` that is not a symlink, yet `expand_ppath` gives `//b` while
`expand_path` gives `/b` — the two do not always agree on non-symlink
leaves (the parent-only variant always inserts a separator slash, the full
variant does not double a root slash). -/
theorem expand_ppath_double_slash_counterexample :
    expand_ppath ctxAllFiles "" "//b" = .ok "//b"
    ∧ expand_path ctxAllFiles "" "//b" 0 = .ok "/b"
    ∧ (ctxAllFiles.GetAttr "//b").2.st_mode_is_link = false
    ∧ (ctxAllFiles.GetAttr "/b").2.st_mode_is_link = false
    ∧ ("//b" : String) ≠ "/b" := by
  refine ⟨?_, evalDoubleSlash, rfl, rfl, by decide⟩
  rw [expand_ppath_ok ctxAllFiles "" "//b" "/" (by decide) evalRootAll]
  rfl

/-- C7 (amended): `expand_ppath` returns the input unchanged when there is
no parent component, and otherwise `Expand(parent) ++ "/" ++ fname`
(errors of the parent expansion propagate).  When the final component is an
ordinary (non-dot) name, is not a symlink, and the expanded parent does not
end in `/`, `expand_ppath` and `expand_path` agree; they differ when the
final component is a symlink, which `expand_ppath` leaves un-dereferenced. -/
theorem expand_ppath_parent_only :
    (∀ (ctx : Ctx) (m path : String), GetParentPath path = "" →
        expand_ppath ctx m path = .ok path)
    ∧ (∀ (ctx : Ctx) (m path x : String), GetParentPath path ≠ "" →
        expand_path ctx m (GetParentPath path) 0 = .ok x →
        expand_ppath ctx m path = .ok (x ++ "/" ++ GetFileName path))
    ∧ (∀ (ctx : Ctx) (m path : String) (e : Int), GetParentPath path ≠ "" →
        expand_path ctx m (GetParentPath path) 0 = .error e →
        expand_ppath ctx m path = .error e)
    ∧ (∀ (ctx : Ctx) (m path x : String) (st : FileStat), GetParentPath path ≠ "" →
        GetFileName path ≠ "." → GetFileName path ≠ ".." →
        expand_path ctx m (GetParentPath path) 0 = .ok x →
        x.data.getLast? ≠ some '/' →
        ctx.GetAttr (x ++ "/" ++ GetFileName path) = (0, st) →
        st.st_mode_is_link = false →
        expand_path ctx m path 0 = .ok (x ++ "/" ++ GetFileName path)
        ∧ expand_ppath ctx m path = .ok (x ++ "/" ++ GetFileName path))
    ∧ (expand_ppath ctxSL "" "/a/b" = .ok "/a/b"
        ∧ expand_path ctxSL "" "/a/b" 0 = .ok "/a/c"
        ∧ (ctxSL.GetAttr "/a/b").2.st_mode_is_link = true
        ∧ (Except.ok "/a/b" : Except Int String) ≠ .ok "/a/c") := by
  refine ⟨expand_ppath_top, expand_ppath_ok, expand_ppath_error, ?_, ?_, evalSL, rfl, by simp⟩
  · intro ctx m path x st hpp hdot hdd hx hlast ha hlink
    have hcand : candidateOf x (GetFileName path) = x ++ "/" ++ GetFileName path := by
      unfold candidateOf
      rw [if_pos (Or.inr hlast)]
    constructor
    · have hstep := expand_path_nonlink_step ctx m path 0 x st hdd
        (fun hc => hdot hc.2) (by rw [if_neg hpp]; exact hx)
        (by rw [hcand]; exact ha) hlink
      rw [hcand] at hstep
      exact hstep
    · exact expand_ppath_ok ctx m path x hpp hx
  · rw [expand_ppath_ok ctxSL "" "/a/b" "/a" (by decide) evalSLparent]
    rfl

/-- Witness for C7's amended statement on concrete runs. -/
theorem expand_ppath_parent_only_witness :
    expand_ppath ctxAllFiles "" "b" = .ok "b"
    ∧ expand_ppath ctxAllFiles "" "/a/b" = .ok ("/a" ++ "/" ++ GetFileName "/a/b")
    ∧ (expand_path ctxAllFiles "" "/a/b" 0 = .ok ("/a" ++ "/" ++ GetFileName "/a/b")
        ∧ expand_ppath ctxAllFiles "" "/a/b" = .ok ("/a" ++ "/" ++ GetFileName "/a/b")) :=
  ⟨expand_ppath_parent_only.1 ctxAllFiles "" "b" (by decide),
   expand_ppath_parent_only.2.1 ctxAllFiles "" "/a/b" "/a" (by decide) evalSlashA,
   expand_ppath_parent_only.2.2.2.1 ctxAllFiles "" "/a/b" "/a"
     { st_mode_is_link := false, st_size := 0 } (by decide) (by decide) (by decide)
     evalSlashA (by decide) rfl rfl⟩

/-- The path `/a/b` is canonical. -/
theorem canonical_ab : Canonical "/a/b" := by
  have h1 : Canonical ("/" ++ "a") :=
    Canonical.top "a" ⟨by decide, by decide, by decide, by decide⟩
  have h2 : Canonical (("/" ++ "a") ++ "/" ++ "b") :=
    Canonical.step ("/" ++ "a") "b" h1 ⟨by decide, by decide, by decide, by decide⟩
  exact h2

/-- C8 (Idempotence): a path that is already canonical — absolute, with no
`.`/`..`/empty components — on a backend whose attribute lookup succeeds
with a non-symlink answer on the path and every component-wise ancestor,
expands to itself unchanged (the root `/` included). -/
theorem expand_path_idempotence :
    (∀ (ctx : Ctx) (m : String) (depth : Nat),
        (ctx.GetAttr "/").1 = 0 → (ctx.GetAttr "/").2.st_mode_is_link = false →
        expand_path ctx m "/" depth = .ok "/")
    ∧ (∀ (ctx : Ctx) (m path : String) (depth : Nat), Canonical path →
        (∀ q ∈ ancestors path,
          (ctx.GetAttr q).1 = 0 ∧ (ctx.GetAttr q).2.st_mode_is_link = false) →
        expand_path ctx m path depth = .ok path) := by
  constructor
  · intro ctx m depth h1 h2
    have hcd : candidateOf "" (GetFileName "/") = "/" := by decide
    have hstep := expand_path_nonlink_step ctx m "/" depth "" (ctx.GetAttr "/").2
      (by decide) (fun hx => hx.1 (by decide)) (by rw [if_pos (by decide : GetParentPath "/" = "")])
      (by rw [hcd]; exact getAttr_pair_of_rc_zero ctx "/" h1) h2
    rw [hcd] at hstep
    exact hstep
  · intro ctx m path depth hc hat
    exact expand_path_canonical ctx m path hc depth hat

/-- Witness for C8 on concrete canonical paths. -/
theorem expand_path_idempotence_witness :
    expand_path ctxAllFiles "" "/" 0 = .ok "/"
    ∧ expand_path ctxAllFiles "" "/a/b" 0 = .ok "/a/b" :=
  ⟨expand_path_idempotence.1 ctxAllFiles "" 0 rfl rfl,
   expand_path_idempotence.2 ctxAllFiles "" "/a/b" 0 canonical_ab (fun _ _ => ⟨rfl, rfl⟩)⟩

/-- C9 (FileAPI convention): `cvmfs_stat`, `cvmfs_open` and `cvmfs_listdir`
canonicalize with full resolution; `cvmfs_lstat` and `cvmfs_readlink` with
parent-only resolution, operating on the literal final component;
`cvmfs_close` performs no resolution.  Resolution failures propagate
(`-1` with the resolver's errno); backend failures yield `-1` with errno
the magnitude of the backend's negative status; otherwise the result is
non-negative.  A final symlink is followed by `stat` but not by `lstat`. -/
theorem cvmfs_fileapi_convention :
    (∀ (ctx : Ctx) (m path : String) (e : Int), expand_path ctx m path 0 = .error e →
      cvmfs_stat ctx m path = .error e ∧ cvmfs_open ctx m path = .error e
      ∧ cvmfs_listdir ctx m path = .error e)
    ∧ (∀ (ctx : Ctx) (m path : String) (size : Nat) (e : Int),
        expand_ppath ctx m path = .error e →
        cvmfs_lstat ctx m path = .error e ∧ cvmfs_readlink ctx m path size = .error e)
    ∧ (∀ (ctx : Ctx) (m path lpath : String), expand_path ctx m path 0 = .ok lpath →
        ((ctx.GetAttr lpath).1 < 0 → cvmfs_stat ctx m path = .error (-(ctx.GetAttr lpath).1))
        ∧ (0 ≤ (ctx.GetAttr lpath).1 → cvmfs_stat ctx m path = .ok (ctx.GetAttr lpath).2)
        ∧ (ctx.Open lpath < 0 → cvmfs_open ctx m path = .error (-(ctx.Open lpath)))
        ∧ (0 ≤ ctx.Open lpath → cvmfs_open ctx m path = .ok (ctx.Open lpath))
        ∧ ((ctx.ListDirectory lpath).1 < 0 →
            cvmfs_listdir ctx m path = .error (-(ctx.ListDirectory lpath).1))
        ∧ (0 ≤ (ctx.ListDirectory lpath).1 →
            cvmfs_listdir ctx m path = .ok (ctx.ListDirectory lpath).2))
    ∧ (∀ (ctx : Ctx) (m path lpath : String) (size : Nat),
        expand_ppath ctx m path = .ok lpath →
        ((ctx.GetAttr lpath).1 < 0 → cvmfs_lstat ctx m path = .error (-(ctx.GetAttr lpath).1))
        ∧ (0 ≤ (ctx.GetAttr lpath).1 → cvmfs_lstat ctx m path = .ok (ctx.GetAttr lpath).2)
        ∧ ((ctx.Readlink lpath size).1 < 0 →
            cvmfs_readlink ctx m path size = .error (-(ctx.Readlink lpath size).1))
        ∧ (0 ≤ (ctx.Readlink lpath size).1 →
            cvmfs_readlink ctx m path size = .ok (ctx.Readlink lpath size).2))
    ∧ (∀ (ctx : Ctx) (fd : Int),
        (ctx.Close fd < 0 → cvmfs_close ctx fd = .error (-(ctx.Close fd)))
        ∧ (0 ≤ ctx.Close fd → cvmfs_close ctx fd = .ok 0))
    ∧ (cvmfs_stat ctxSL "" "/a/b" = .ok { st_mode_is_link := false, st_size := 0 }
        ∧ cvmfs_lstat ctxSL "" "/a/b" = .ok { st_mode_is_link := true, st_size := 1 }) := by
  refine ⟨?_, ?_, ?_, ?_, ?_, ?_, ?_⟩
  · intro ctx m path e h
    refine ⟨?_, ?_, ?_⟩
    · unfold cvmfs_stat; rw [h]
    · unfold cvmfs_open; rw [h]
    · unfold cvmfs_listdir; rw [h]
  · intro ctx m path size e h
    refine ⟨?_, ?_⟩
    · unfold cvmfs_lstat; rw [h]
    · unfold cvmfs_readlink; rw [h]
  · intro ctx m path lpath h
    refine ⟨?_, ?_, ?_, ?_, ?_, ?_⟩
    · intro hlt; unfold cvmfs_stat; rw [h]; dsimp only; rw [if_pos hlt]
    · intro hge; unfold cvmfs_stat; rw [h]; dsimp only; rw [if_neg (by omega)]
    · intro hlt; unfold cvmfs_open; rw [h]; dsimp only; rw [if_pos hlt]
    · intro hge; unfold cvmfs_open; rw [h]; dsimp only; rw [if_neg (by omega)]
    · intro hlt; unfold cvmfs_listdir; rw [h]; dsimp only; rw [if_pos hlt]
    · intro hge; unfold cvmfs_listdir; rw [h]; dsimp only; rw [if_neg (by omega)]
  · intro ctx m path lpath size h
    refine ⟨?_, ?_, ?_, ?_⟩
    · intro hlt; unfold cvmfs_lstat; rw [h]; dsimp only; rw [if_pos hlt]
    · intro hge; unfold cvmfs_lstat; rw [h]; dsimp only; rw [if_neg (by omega)]
    · intro hlt; unfold cvmfs_readlink; rw [h]; dsimp only; rw [if_pos hlt]
    · intro hge; unfold cvmfs_readlink; rw [h]; dsimp only; rw [if_neg (by omega)]
  · intro ctx fd
    refine ⟨?_, ?_⟩
    · intro hlt; unfold cvmfs_close; rw [if_pos hlt]
    · intro hge; unfold cvmfs_close; rw [if_neg (by omega)]
  · unfold cvmfs_stat
    rw [evalSL]
    rfl
  · have hpp : expand_ppath ctxSL "" "/a/b" = .ok ("/a" ++ "/" ++ GetFileName "/a/b") :=
      expand_ppath_ok ctxSL "" "/a/b" "/a" (by decide) evalSLparent
    unfold cvmfs_lstat
    rw [hpp]
    rfl

/-- Witness for C9: a resolution failure propagates through the stat, open
and listdir adapters unchanged. -/
theorem cvmfs_fileapi_convention_witness :
    cvmfs_stat ctxDot "" "/." = .error 5 ∧ cvmfs_open ctxDot "" "/." = .error 5
    ∧ cvmfs_listdir ctxDot "" "/." = .error 5 :=
  cvmfs_fileapi_convention.1 ctxDot "" "/." 5 evalDotErr

/-- C10 (implicit — empty mountpoint disables containment): when the
process-wide mountpoint string is empty (its initial value, and the value
`cvmfs_fini` resets it to), the absolute-symlink containment test matches
every absolute target, the EscapesRoot branch is unreachable, and the
resolver recurses on the full target string as if it were
repository-relative. -/
theorem expand_path_empty_mountpoint :
    ∀ (ctx : Ctx) (path : String) (depth : Nat) (buf0 : String) (st : FileStat) (t : String),
      GetFileName path ≠ ".." →
      ¬ (GetParentPath path ≠ "" ∧ GetFileName path = ".") →
      (if GetParentPath path = "" then Except.ok ""
       else expand_path ctx "" (GetParentPath path) depth) = Except.ok buf0 →
      ctx.GetAttr (candidateOf buf0 (GetFileName path)) = (0, st) →
      st.st_mode_is_link = true →
      ¬ depth > 1000 →
      ctx.Readlink (candidateOf buf0 (GetFileName path)) (st.st_size + 2) = (0, t) →
      t.data.head? = some '/' →
      mountMatch "" t = true
      ∧ expand_path ctx "" path depth = expand_path ctx "" t (depth + 1) := by
  intro ctx path depth buf0 st t hdd hg hp ha hlink hd hrl hhead
  obtain ⟨l, hdata⟩ : ∃ l, t.data = '/' :: l := by
    cases ht : t.data with
    | nil => rw [ht] at hhead; simp at hhead
    | cons c l =>
      rw [ht] at hhead
      simp only [List.head?_cons, Option.some.injEq] at hhead
      subst hhead
      exact ⟨l, rfl⟩
  have hmm : mountMatch "" t = true := by
    unfold mountMatch
    rw [hdata]
    simp [List.isPrefixOf]
  have hstrip : stripMount "" t = t := by
    unfold stripMount
    rw [if_neg (by rw [hdata]; simp)]
    simp [string_mk_data]
  have hstep := expand_path_symlink_step ctx "" path depth buf0 st t hdd hg hp ha hlink hd hrl
  rw [if_pos hhead, if_pos hmm, hstrip] at hstep
  exact ⟨hmm, hstep⟩

/-- Witness for C10: with an empty mountpoint, the absolute target
`/etc/passwd` — which Scenario C rejects under a real mountpoint — is
accepted and resolution continues on the full target. -/
theorem expand_path_empty_mountpoint_witness :
    mountMatch "" "/etc/passwd" = true
    ∧ expand_path ctxM "" "/l" 0 = expand_path ctxM "" "/etc/passwd" 1 :=
  expand_path_empty_mountpoint ctxM "/l" 0 ""
    { st_mode_is_link := true, st_size := 11 } "/etc/passwd"
    (by decide) (by decide) (by rw [if_pos (by decide : GetParentPath "/l" = "")]) rfl rfl
    (by omega) rfl (by decide)
